import Mathlib

/-!
Shallow embedding of `src/noise-models-4-mobileqkd.py` (quantum-noise models
for mobile QKD) and a verification of the frozen claims about it.

Modelling conventions:
* A key (Python: a string of '0'/'1' characters) is a `List Bool`
  (`'1'` ↦ `true`, `'0'` ↦ `false`).
* Python floats are modelled as rationals `ℚ` (exact real semantics).
* The process-wide NumPy random generator is modelled by an explicit random
  source `RandSrc`: per symbol position `i` the code draws at most one value
  from `np.random.rand()` (`RandSrc.rand i`), at most one from
  `np.random.choice(['0','1'])` (`RandSrc.choice i`) and at most one from
  `np.random.normal(0, 0.1)` (`RandSrc.gauss i`), so indexing the draws by
  position is faithful to "fresh randomness per position".
* `np.log2` is transcendental, hence not a function on `ℚ`; the non-special
  branch of `shannon_entropy` is abstracted as a parameter `H : ℚ → ℚ`.
  Every theorem below that involves entropy is proved for all `H`.
-/

/-- Random source consumed by `apply_noise`: for symbol position `i`,
`rand i` models `np.random.rand()`, `choice i` models
`np.random.choice(['0','1'])` (`true` = '1'), and `gauss i` models
`np.random.normal(0, 0.1)`. -/
structure RandSrc where
  rand : ℕ → ℚ
  choice : ℕ → Bool
  gauss : ℕ → ℚ

/-- The module-level list `noise_models` (source lines 16-21). -/
def noise_models : List String :=
  ["Bit Flip", "Phase Flip", "Bit-Phase Flip", "Depolarizing",
   "Amplitude Damping", "Generalized Amplitude Damping", "Phase Damping",
   "Non-Markovian", "Collective Correlated", "Gaussian Bosonic",
   "Polarization Mode Dispersion", "Photon Number Splitting"]

/-- One iteration of the loop body of `apply_noise` (source lines 27-55):
given the model name, probability `p`, position `i` and the bit at that
position, produce the output bit.  Each branch is a direct transcription of
the corresponding Python conditional expression; the final `else` is the
pass-through for unrecognized model names (lines 54-55). -/
def noisyBit (model : String) (p : ℚ) (R : RandSrc) (i : ℕ) (bit : Bool) : Bool :=
  let rand := R.rand i
  if model = "Bit Flip" then
    if bit = false ∧ rand < p then true
    else if bit = true ∧ rand < p then false
    else bit
  else if model = "Phase Flip" then bit
  else if model = "Bit-Phase Flip" then
    if bit = false ∧ rand < p then true
    else if bit = true ∧ rand < p then false
    else bit
  else if model = "Depolarizing" then
    if rand < p then R.choice i else bit
  else if model = "Amplitude Damping" then
    if bit = true ∧ rand < p then false else bit
  else if model = "Generalized Amplitude Damping" then
    if bit = true ∧ rand < p * (6/10) then false
    else if bit = false ∧ rand < p * (4/10) then true
    else bit
  else if model = "Phase Damping" then bit
  else if model = "Non-Markovian" then
    if rand < p ∧ i % 2 = 0 then R.choice i else bit
  else if model = "Collective Correlated" then
    if bit = false ∧ rand < p then true
    else if bit = true ∧ rand < p then false
    else bit
  else if model = "Gaussian Bosonic" then
    if R.gauss i + p > 15/100 then R.choice i else bit
  else if model = "Polarization Mode Dispersion" then
    if bit = false ∧ rand < p / 2 then true
    else if bit = true ∧ rand < p / 2 then false
    else bit
  else if model = "Photon Number Splitting" then
    if bit = true ∧ rand < p then true else bit
  else bit

/-- The loop of `apply_noise` (`for i, bit in enumerate(key)`), carrying the
running position `i`. -/
def applyNoiseAux (model : String) (p : ℚ) (R : RandSrc) : ℕ → List Bool → List Bool
  | _, [] => []
  | i, bit :: rest => noisyBit model p R i bit :: applyNoiseAux model p R (i + 1) rest

/-- `apply_noise(key, p, model)` (source lines 24-56).  The randomness of the
process-wide generator is made explicit as the argument `R`. -/
def apply_noise (key : List Bool) (p : ℚ) (model : String) (R : RandSrc) : List Bool :=
  applyNoiseAux model p R 0 key

/-- The value `sum(o!=n for o,n in zip(orig,noisy)) / len(orig)` (source
line 60).  Defined on its own so that the sweep can use it; `zip` truncates
to the shorter argument, exactly as Python's `zip` does. -/
def qberVal (orig noisy : List Bool) : ℚ :=
  (((orig.zip noisy).countP (fun pr => pr.1 ≠ pr.2) : ℕ) : ℚ) / (orig.length : ℚ)

/-- `qber(orig, noisy)` (source lines 59-60).  Python raises
`ZeroDivisionError` exactly when `len(orig) == 0` (the division is the only
failure point: `zip` never fails); this is modelled by `none`. -/
def qber (orig noisy : List Bool) : Option ℚ :=
  if orig.length = 0 then none else some (qberVal orig noisy)

/-- `shannon_entropy(q)` (source lines 62-64).  The special cases
`q in (0,1)` return `0`; the branch `-q*np.log2(q) - (1-q)*np.log2(1-q)`
involves the transcendental `log2` and is abstracted by the parameter `H`. -/
def shannon_entropy (H : ℚ → ℚ) (q : ℚ) : ℚ :=
  if q = 0 ∨ q = 1 then 0 else H q

/-- `adaptive_amplification(ent)` (source lines 66-70), with the float
literals `0.9`, `0.75`, `0.6` read as the rationals they denote. -/
def adaptive_amplification (ent : ℚ) : ℚ :=
  if ent ≥ 9/10 then 1
  else if ent ≥ 3/4 then 3/4
  else if ent ≥ 3/5 then 3/5
  else 1/2

/-- `int(key_length * adaptive_amplification(ent))` (source line 85).
Python's `int()` truncates toward zero, which on the nonnegative values
arising here is the floor. -/
def retainedCount (keyLength : ℕ) (ent : ℚ) : ℕ :=
  ⌊(keyLength : ℚ) * adaptive_amplification ent⌋₊

/-- `static_baseline = key_length // 2` (source line 75). -/
def static_baseline (keyLength : ℕ) : ℕ := keyLength / 2

/- ### Helper lemmas -/

theorem applyNoiseAux_length (model : String) (p : ℚ) (R : RandSrc) :
    ∀ (i : ℕ) (key : List Bool), (applyNoiseAux model p R i key).length = key.length := by
  intro i key
  induction key generalizing i with
  | nil => rfl
  | cons b rest ih => simp [applyNoiseAux, ih]

theorem adaptive_amplification_ge_half (x : ℚ) : 1/2 ≤ adaptive_amplification x := by
  unfold adaptive_amplification
  split_ifs <;> norm_num

theorem adaptive_amplification_nonneg (x : ℚ) : 0 ≤ adaptive_amplification x :=
  le_trans (by norm_num) (adaptive_amplification_ge_half x)

/- ### Claims about the noise channel and the adaptive policy -/

/-- C1: for every key, probability and model (recognized or not) and every
random source, `apply_noise` returns a key of the same length as the input.
The input key itself is unchanged by construction: the embedding is pure and
the Python code only reads `key` while appending to a fresh string. -/
theorem C1_apply_noise_length (key : List Bool) (p : ℚ) (model : String) (R : RandSrc) :
    (apply_noise key p model R).length = key.length :=
  applyNoiseAux_length model p R 0 key

/-- C2: `adaptive_amplification` maps confidence by inclusive lower-bound
thresholds checked in descending order, first match winning
(`≥ 0.9 ↦ 1.0`, else `≥ 0.75 ↦ 0.75`, else `≥ 0.6 ↦ 0.6`, else `0.5`), and
the retained-bit count equals `⌊key_length · fraction⌋`. -/
theorem C2_adaptive_thresholds (x : ℚ) (L : ℕ) :
    (9/10 ≤ x → adaptive_amplification x = 1) ∧
    (3/4 ≤ x → x < 9/10 → adaptive_amplification x = 3/4) ∧
    (3/5 ≤ x → x < 3/4 → adaptive_amplification x = 3/5) ∧
    (x < 3/5 → adaptive_amplification x = 1/2) ∧
    ((retainedCount L x : ℤ) = ⌊(L : ℚ) * adaptive_amplification x⌋) := by
  refine ⟨?_, ?_, ?_, ?_, ?_⟩
  · intro h; unfold adaptive_amplification; split_ifs <;> first | rfl | linarith
  · intro h h'; unfold adaptive_amplification; split_ifs <;> first | rfl | linarith
  · intro h h'; unfold adaptive_amplification; split_ifs <;> first | rfl | linarith
  · intro h; unfold adaptive_amplification; split_ifs <;> first | rfl | linarith
  · unfold retainedCount
    rw [← Int.floor_toNat]
    exact Int.toNat_of_nonneg (Int.floor_nonneg.mpr
      (mul_nonneg (Nat.cast_nonneg L) (adaptive_amplification_nonneg x)))

/-- Witness for C2 at the concrete confidence `0.8` and key length `512`:
the second threshold fires and the retained count is `⌊512 · 0.75⌋ = 384`. -/
theorem C2_adaptive_thresholds_witness :
    adaptive_amplification (4/5) = 3/4 ∧ (retainedCount 512 (4/5) : ℤ) = 384 := by
  have h := C2_adaptive_thresholds (4/5) 512
  refine ⟨h.2.1 (by norm_num) (by norm_num), ?_⟩
  rw [h.2.2.2.2, h.2.1 (by norm_num) (by norm_num)]
  norm_num

/-- C6: `apply_noise` with model "Photon Number Splitting" is the identity on
every key, for every probability and every sequence of random draws: the rule
sets a 1 to 1 when `r < p`, a no-op by construction. -/
theorem C6_photon_number_splitting_identity (key : List Bool) (p : ℚ) (R : RandSrc) :
    apply_noise key p "Photon Number Splitting" R = key := by
  unfold apply_noise
  suffices h : ∀ (i : ℕ) (k : List Bool),
      applyNoiseAux "Photon Number Splitting" p R i k = k from h 0 key
  intro i k
  induction k generalizing i with
  | nil => rfl
  | cons b rest ih =>
    have hb : noisyBit "Photon Number Splitting" p R i b = b := by
      cases b <;> simp [noisyBit]
    simp [applyNoiseAux, hb, ih]

/-- C7: with the same key, probability and random draws, the models
"Bit-Phase Flip" and "Collective Correlated" produce exactly the output of
"Bit Flip": the three branches are byte-identical in the source. -/
theorem C7_shared_flip_logic (key : List Bool) (p : ℚ) (R : RandSrc) :
    apply_noise key p "Bit-Phase Flip" R = apply_noise key p "Bit Flip" R ∧
    apply_noise key p "Collective Correlated" R = apply_noise key p "Bit Flip" R := by
  unfold apply_noise
  have h1 : ∀ (i : ℕ) (k : List Bool),
      applyNoiseAux "Bit-Phase Flip" p R i k = applyNoiseAux "Bit Flip" p R i k := by
    intro i k
    induction k generalizing i with
    | nil => rfl
    | cons b rest ih => simp only [applyNoiseAux, ih]; rfl
  have h2 : ∀ (i : ℕ) (k : List Bool),
      applyNoiseAux "Collective Correlated" p R i k = applyNoiseAux "Bit Flip" p R i k := by
    intro i k
    induction k generalizing i with
    | nil => rfl
    | cons b rest ih => simp only [applyNoiseAux, ih]; rfl
  exact ⟨h1 0 key, h2 0 key⟩

/-- C8: `adaptive_amplification` is monotonically non-decreasing, and its
value is always one of `0.5`, `0.6`, `0.75`, `1.0`. -/
theorem C8_adaptive_monotone_range (x y : ℚ) (hxy : x ≤ y) :
    adaptive_amplification x ≤ adaptive_amplification y ∧
    (adaptive_amplification x = 1/2 ∨ adaptive_amplification x = 3/5 ∨
     adaptive_amplification x = 3/4 ∨ adaptive_amplification x = 1) := by
  constructor
  · unfold adaptive_amplification
    split_ifs <;> linarith
  · unfold adaptive_amplification
    split_ifs <;> norm_num

/-- Witness for C8 at the concrete pair `0.7 ≤ 0.95`. -/
theorem C8_adaptive_monotone_range_witness :
    adaptive_amplification (7/10) ≤ adaptive_amplification (19/20) ∧
    (adaptive_amplification (7/10) = 1/2 ∨ adaptive_amplification (7/10) = 3/5 ∨
     adaptive_amplification (7/10) = 3/4 ∨ adaptive_amplification (7/10) = 1) :=
  C8_adaptive_monotone_range (7/10) (19/20) (by norm_num)

/- ### Lemmas about `qber` -/

theorem countP_zip_self (k : List Bool) :
    (k.zip k).countP (fun pr => pr.1 ≠ pr.2) = 0 := by
  induction k with
  | nil => rfl
  | cons x rest ih =>
    rw [List.zip_cons_cons, List.countP_cons, ih]
    simp

theorem countP_zip_comm (a : List Bool) :
    ∀ b : List Bool,
      (a.zip b).countP (fun pr => pr.1 ≠ pr.2) = (b.zip a).countP (fun pr => pr.1 ≠ pr.2) := by
  induction a with
  | nil => intro b; cases b <;> rfl
  | cons x a' ih =>
    intro b
    cases b with
    | nil => rfl
    | cons y b' =>
      simp only [List.zip_cons_cons, List.countP_cons, ih b']
      congr 1
      simp [ne_comm]

theorem countP_zip_mismatch_eq (a : List Bool) :
    ∀ b : List Bool, a.length = b.length →
      (a.zip b).countP (fun pr => pr.1 ≠ pr.2) =
      (List.range a.length).countP (fun i => a.getD i false ≠ b.getD i false) := by
  induction a with
  | nil => intro b h; rfl
  | cons x a' ih =>
    intro b h
    cases b with
    | nil => simp at h
    | cons y b' =>
      simp only [List.length_cons] at h
      have h' : a'.length = b'.length := Nat.succ_injective h
      simp only [List.zip_cons_cons, List.countP_cons, List.length_cons,
        List.range_succ_eq_map, List.countP_map]
      simp only [Function.comp_def, List.getD_cons_succ, List.getD_cons_zero]
      rw [ih b' h']

/- ### Claims about `qber` -/

/-- C4 counterexample: `qber` does not fail on mismatched lengths — at the
concrete unequal-length input (`"1"`, `""`) it silently returns a value
(`zip` truncates and the mismatch count `0` is divided by `len(orig) = 1`),
refuting "fails with a length-mismatch error whenever the lengths differ". -/
theorem C4_counterexample :
    qber [true] [] = some 0 ∧ ([true] : List Bool).length ≠ ([] : List Bool).length := by
  constructor
  · show (if _ then _ else _) = _
    norm_num [qber, qberVal]
  · decide

/-- C4 amended: `qber` performs no length check — it truncates to the shorter
key via `zip` and divides the mismatch count by the length of its first
argument, failing (with `ZeroDivisionError`, modelled `none`) exactly when
the first key is empty; when the lengths are equal it returns the fraction of
positions at which the two keys differ. -/
theorem C4_qber_amended (a b : List Bool) :
    (a = [] → qber a b = none) ∧
    (a ≠ [] → qber a b =
      some (((a.zip b).countP (fun pr => pr.1 ≠ pr.2) : ℚ) / (a.length : ℚ))) ∧
    (a ≠ [] → a.length = b.length → qber a b =
      some ((((List.range a.length).countP
          (fun i => a.getD i false ≠ b.getD i false) : ℕ) : ℚ) / (a.length : ℚ))) := by
  refine ⟨?_, ?_, ?_⟩
  · intro h; subst h; rfl
  · intro h
    rw [qber, if_neg (by simpa using h)]
    rfl
  · intro h hlen
    rw [qber, if_neg (by simpa using h), qberVal, countP_zip_mismatch_eq a b hlen]

/-- Witness for C4 amended at concrete inputs: the empty first key fails,
and the equal-length pair (`"1"`, `"0"`) yields mismatch fraction `1`. -/
theorem C4_qber_amended_witness :
    qber [] [] = none ∧ qber [true] [false] = some 1 := by
  constructor
  · exact (C4_qber_amended [] []).1 rfl
  · have h := (C4_qber_amended [true] [false]).2.2 (by decide) (by decide)
    rw [h]
    have hc : List.countP (fun i => decide ([true].getD i false ≠ [false].getD i false))
        (List.range [true].length) = 1 := by decide
    rw [hc]
    norm_num

/-- C9 counterexample: `qber` is not symmetric on unequal-length keys — for
`a = "10"`, `b = "0"` the truncating `zip` gives one mismatch, divided by the
length of the first argument: `qber(a,b) = 1/2` but `qber(b,a) = 1`.  This
refutes the unrestricted claim "for every pair of keys a and b,
qber(a, b) = qber(b, a)". -/
theorem C9_counterexample :
    qber [true, false] [false] ≠ qber [false] [true, false] := by
  show (if _ then _ else _) ≠ (if _ then _ else _)
  norm_num [qber, qberVal, List.countP_cons]

/-- C9 amended: `qber k k = 0` for every non-empty key `k` (the empty key
raises `ZeroDivisionError`, modelled `none`), and `qber` is symmetric on
pairs of keys of equal length. -/
theorem C9_qber_amended (k a b : List Bool) :
    (k ≠ [] → qber k k = some 0) ∧
    (a.length = b.length → qber a b = qber b a) := by
  constructor
  · intro h
    rw [qber, if_neg (by simpa using h), qberVal, countP_zip_self]
    norm_num
  · intro hlen
    rw [qber, qber, qberVal, qberVal, countP_zip_comm a b, hlen]

/-- Witness for C9 amended at `k = "10"`, `a = "01"`, `b = "10"`. -/
theorem C9_qber_amended_witness :
    qber [true, false] [true, false] = some 0 ∧
    qber [false, true] [true, false] = qber [true, false] [false, true] :=
  ⟨(C9_qber_amended [true, false] [] []).1 (by decide),
   (C9_qber_amended [] [false, true] [true, false]).2 (by decide)⟩

/- ### The sweep engine `unified_comparison_all_models` (source lines 73-99)

The source function reads the module globals `key_length`, `original_key`,
`noise_models` and builds `noise_range = np.linspace(0.01, 0.3, 12)`; the
embedding makes them parameters (`key`, `models`, `grid`) so that the claims
about degenerate grids and model lists can be stated.  `key_length` is
`len(original_key)`.  Fresh randomness is drawn per (model, grid-point)
evaluation: `Rs i j` is the random source consumed at model index `i` and
grid index `j`.  The plotting and markdown reporting (lines 101-153) are the
out-of-scope presentation layer and are not modelled; the statistics handed
to it (lines 74-99) are. -/

/-- `np.mean` of a list: `none` models the NaN (with a RuntimeWarning, not an
exception) that NumPy produces for the mean of an empty array. -/
def meanVal (xs : List ℚ) : ℚ := xs.sum / (xs.length : ℚ)

/-- NumPy mean with its empty-input NaN, modelled as `none`. -/
def listMean (xs : List ℚ) : Option ℚ :=
  if xs = [] then none else some (meanVal xs)

/-- Inner loop of the sweep (source lines 81-86): one retained-bit count per
grid entry, carrying the grid index `j` for the randomness. -/
def curveAux (H : ℚ → ℚ) (key : List Bool) (model : String) (R : ℕ → RandSrc) :
    ℕ → List ℚ → List ℕ
  | _, [] => []
  | j, p :: ps =>
    retainedCount key.length
        (1 - shannon_entropy H (qberVal key (apply_noise key p model (R j)))) ::
      curveAux H key model R (j + 1) ps

/-- The `adaps` list collected for one model (source lines 80-86): the
ModelCurve.  For an empty `key` the Python `qber` call would raise
`ZeroDivisionError`; theorems about the sweep therefore assume `key ≠ []`
where that matters. -/
def modelCurve (H : ℚ → ℚ) (key : List Bool) (model : String) (grid : List ℚ)
    (R : ℕ → RandSrc) : List ℕ :=
  curveAux H key model R 0 grid

/-- `np.array(adaps) - static_baseline` (source line 88) as exact rationals. -/
def gainDiffs (keyLength : ℕ) (curve : List ℕ) : List ℚ :=
  curve.map (fun (a : ℕ) => (a : ℚ) - (static_baseline keyLength : ℚ))

/-- The outer loop rows `adaptive_matrix` (source lines 79-87), model index
`i` carried for the randomness. -/
def matrixAux (H : ℚ → ℚ) (key : List Bool) (grid : List ℚ) (Rs : ℕ → ℕ → RandSrc) :
    ℕ → List String → List (List ℕ)
  | _, [] => []
  | i, m :: ms => modelCurve H key m grid (Rs i) :: matrixAux H key grid Rs (i + 1) ms

/-- The `model_gains` insertion-ordered dictionary (source lines 77 and 88):
an association list in model-list order, one mean gain per model. -/
def gainsAux (H : ℚ → ℚ) (key : List Bool) (grid : List ℚ) (Rs : ℕ → ℕ → RandSrc) :
    ℕ → List String → List (String × Option ℚ)
  | _, [] => []
  | i, m :: ms =>
    (m, listMean (gainDiffs key.length (modelCurve H key m grid (Rs i)))) ::
      gainsAux H key grid Rs (i + 1) ms

/-- Python float `>` with NaN semantics: any comparison involving NaN is
false.  This drives `max(model_gains, key=model_gains.get)` (line 96). -/
def nanGt (a b : Option ℚ) : Bool :=
  match a, b with
  | some x, some y => decide (y < x)
  | _, _ => false

/-- Python float `<` with NaN semantics, for `min(...)` (line 97). -/
def nanLt (a b : Option ℚ) : Bool :=
  match a, b with
  | some x, some y => decide (x < y)
  | _, _ => false

/-- `max(model_gains, key=model_gains.get)` (source line 96): Python's `max`
scans the dict keys in insertion order keeping the current best and replacing
it only on a strictly greater value, so the first maximum wins; on an empty
dict it raises `ValueError` (`none`). -/
def pyMax (l : List (String × Option ℚ)) : Option (String × Option ℚ) :=
  match l with
  | [] => none
  | g :: gs => some (gs.foldl (fun acc y => if nanGt y.2 acc.2 then y else acc) g)

/-- `min(model_gains, key=model_gains.get)` (source line 97), same scan with
strictly-less replacement. -/
def pyMin (l : List (String × Option ℚ)) : Option (String × Option ℚ) :=
  match l with
  | [] => none
  | g :: gs => some (gs.foldl (fun acc y => if nanLt y.2 acc.2 then y else acc) g)

/-- Minimum of one matrix column (`adaptive_matrix.min(axis=0)` reduces the
model axis); columns are non-empty whenever the model list is. -/
def colMin : List ℕ → ℕ
  | [] => 0
  | x :: xs => xs.foldl Nat.min x

/-- Maximum of one matrix column (`adaptive_matrix.max(axis=0)`). -/
def colMax : List ℕ → ℕ
  | [] => 0
  | x :: xs => xs.foldl Nat.max x

/-- The one failure the sweep's statistics computation can raise: Python's
`ValueError`, from a zero-size NumPy reduction (`.min(axis=0)` of an empty
matrix, line 92) or `max()`/`min()` of the empty `model_gains` dict
(lines 96-97).  Both occur exactly when the model list is empty. -/
inductive SweepError where
  | valueError
deriving DecidableEq

/-- The statistics the sweep hands to the presentation layer (source
lines 76-99): per-model curves, the gains dictionary, per-grid-point
mean/min/max across models, and the best/worst model with their gains. -/
structure SweepStats where
  adaptive_matrix : List (List ℕ)
  model_gains : List (String × Option ℚ)
  mean_adaptive : List ℚ
  min_adaptive : List ℕ
  max_adaptive : List ℕ
  best_model : String
  worst_model : String
  best_gain : Option ℚ
  worst_gain : Option ℚ
deriving DecidableEq

/-- `unified_comparison_all_models` (source lines 73-99), restricted to the
statistics it computes; the per-grid-point aggregates model the `axis=0`
NumPy reductions column by column.  With an empty model list NumPy's
zero-size reduction at line 92 (and `max()` of the empty dict at line 96)
raises `ValueError`; with an empty grid nothing fails here: the gains are
the NaN means of empty arrays and all aggregate curves are empty. -/
def unified_comparison_all_models (H : ℚ → ℚ) (original_key : List Bool)
    (models : List String) (grid : List ℚ) (Rs : ℕ → ℕ → RandSrc) :
    Except SweepError SweepStats :=
  let matrix := matrixAux H original_key grid Rs 0 models
  let gains := gainsAux H original_key grid Rs 0 models
  let cols := (List.range grid.length).map (fun j => matrix.map (fun row => row.getD j 0))
  if models = [] then Except.error SweepError.valueError
  else
    match pyMax gains, pyMin gains with
    | some b, some w =>
      Except.ok
        { adaptive_matrix := matrix
          model_gains := gains
          mean_adaptive := cols.map (fun col => (col.map (fun (a : ℕ) => (a : ℚ))).sum / (col.length : ℚ))
          min_adaptive := cols.map colMin
          max_adaptive := cols.map colMax
          best_model := b.1
          worst_model := w.1
          best_gain := b.2
          worst_gain := w.2 }
    | _, _ => Except.error SweepError.valueError

/- ### Lemmas about the sweep on degenerate inputs -/

theorem gainsAux_nil_grid (H : ℚ → ℚ) (key : List Bool) (Rs : ℕ → ℕ → RandSrc) :
    ∀ (i : ℕ) (ms : List String),
      gainsAux H key [] Rs i ms = ms.map (fun m => (m, (none : Option ℚ))) := by
  intro i ms
  induction ms generalizing i with
  | nil => rfl
  | cons m rest ih =>
    rw [gainsAux, List.map_cons, ih]
    rfl

theorem nanGt_none (a : Option ℚ) : nanGt a none = false := by
  cases a <;> rfl

theorem foldl_keep_of_none (l : List (String × Option ℚ)) :
    ∀ acc : String × Option ℚ, acc.2 = none →
      l.foldl (fun acc y => if nanGt y.2 acc.2 then y else acc) acc = acc := by
  induction l with
  | nil => intro acc _; rfl
  | cons y ys ih =>
    intro acc hacc
    rw [List.foldl_cons, hacc, nanGt_none, if_neg (by simp)]
    exact ih acc hacc

theorem nanLt_none (a : Option ℚ) : nanLt a none = false := by
  cases a <;> rfl

theorem foldl_keep_of_none_min (l : List (String × Option ℚ)) :
    ∀ acc : String × Option ℚ, acc.2 = none →
      l.foldl (fun acc y => if nanLt y.2 acc.2 then y else acc) acc = acc := by
  induction l with
  | nil => intro acc _; rfl
  | cons y ys ih =>
    intro acc hacc
    rw [List.foldl_cons, hacc, nanLt_none, if_neg (by simp)]
    exact ih acc hacc

/-- A concrete random source for closed evaluations: `rand` is always `1`
(so `rand < p` never fires for `p ≤ 1`), `choice` always '0', `gauss` `0`. -/
def constSrc : RandSrc := ⟨fun _ => 1, fun _ => false, fun _ => 0⟩

/- ### Claim C5 -/

/-- C5 counterexample: on an empty probability grid (with the full
twelve-model list) the sweep does NOT fail with an InvalidInput error — it
completes and produces full statistics: one NaN gain (mean of an empty
array, modelled `none`) per model, empty aggregate curves, and, because every
NaN comparison is false, the first model as both best and worst. -/
theorem C5_counterexample :
    unified_comparison_all_models (fun _ => 0) [true] noise_models [] (fun _ _ => constSrc) =
      Except.ok
        ⟨List.replicate 12 [], noise_models.map (fun m => (m, none)), [], [], [],
         "Bit Flip", "Bit Flip", none, none⟩ := by
  rfl

/-- C5 amended: the sweep engine performs no input validation.  With an empty
probability grid it completes normally, producing a gains table with a NaN
(`none`) entry for every model; with an empty model list it does fail, but
with a `ValueError` from the zero-size NumPy reduction / `max()` of an empty
dict — an accident of aggregation, not an InvalidInput check, and statistics
(the NaN gains) are still computed in the empty-grid case. -/
theorem C5_no_input_validation (H : ℚ → ℚ) (key : List Bool) (models : List String)
    (grid : List ℚ) (Rs : ℕ → ℕ → RandSrc) :
    (models ≠ [] →
      (unified_comparison_all_models H key models [] Rs).map SweepStats.model_gains =
        Except.ok (models.map (fun m => (m, (none : Option ℚ))))) ∧
    unified_comparison_all_models H key [] grid Rs = Except.error SweepError.valueError := by
  constructor
  · intro hm
    obtain ⟨m, ms, rfl⟩ := List.exists_cons_of_ne_nil hm
    simp only [unified_comparison_all_models]
    rw [if_neg (by simp), gainsAux_nil_grid, List.map_cons, pyMax, pyMin,
      foldl_keep_of_none _ (m, none) rfl, foldl_keep_of_none_min _ (m, none) rfl]
    rfl
  · rfl

/-- Witness for C5 amended: with the single model "Bit Flip" and an empty
grid the run completes with the NaN gains table; with no models it raises. -/
theorem C5_no_input_validation_witness :
    (unified_comparison_all_models (fun _ => 0) [true] ["Bit Flip"] []
        (fun _ _ => constSrc)).map SweepStats.model_gains =
      Except.ok [("Bit Flip", (none : Option ℚ))] ∧
    unified_comparison_all_models (fun _ => 0) [true] [] [] (fun _ _ => constSrc) =
      Except.error SweepError.valueError :=
  ⟨(C5_no_input_validation (fun _ => 0) [true] ["Bit Flip"] [] (fun _ _ => constSrc)).1
      (List.cons_ne_nil _ _),
   (C5_no_input_validation (fun _ => 0) [true] [] [] (fun _ _ => constSrc)).2⟩

/- ### Stable argmax/argmin over the pure (NaN-free) gains list

When the grid is non-empty every gain is a real number; the Option layer is
then the image of a pure association list under `liftGain`, and Python's
first-match-wins max/min scans are the following fold steps. -/

/-- Lift a pure gains entry into the NaN-capable table. -/
def liftGain (pr : String × ℚ) : String × Option ℚ := (pr.1, some pr.2)

/-- Pure `model_gains` entries (meaningful when the grid is non-empty). -/
def gainsQAux (H : ℚ → ℚ) (key : List Bool) (grid : List ℚ) (Rs : ℕ → ℕ → RandSrc) :
    ℕ → List String → List (String × ℚ)
  | _, [] => []
  | i, m :: ms =>
    (m, meanVal (gainDiffs key.length (modelCurve H key m grid (Rs i)))) ::
      gainsQAux H key grid Rs (i + 1) ms

/-- One step of Python's `max` scan: replace on strictly greater key. -/
def maxStep (acc y : String × ℚ) : String × ℚ := if acc.2 < y.2 then y else acc

/-- One step of Python's `min` scan: replace on strictly smaller key. -/
def minStep (acc y : String × ℚ) : String × ℚ := if y.2 < acc.2 then y else acc

theorem foldl_maxStep_start_le (l : List (String × ℚ)) :
    ∀ g : String × ℚ, g.2 ≤ (l.foldl maxStep g).2 := by
  induction l with
  | nil => intro g; exact le_refl _
  | cons z zs ih =>
    intro g
    rw [List.foldl_cons]
    by_cases h : g.2 < z.2
    · rw [show maxStep g z = z from if_pos h]
      exact le_of_lt (lt_of_lt_of_le h (ih z))
    · rw [show maxStep g z = g from if_neg h]
      exact ih g

theorem foldl_maxStep_mem_le (l : List (String × ℚ)) :
    ∀ (g : String × ℚ), ∀ y ∈ l, y.2 ≤ (l.foldl maxStep g).2 := by
  induction l with
  | nil => intro g y hy; cases hy
  | cons z zs ih =>
    intro g y hy
    rw [List.foldl_cons]
    rcases List.mem_cons.mp hy with rfl | hy'
    · by_cases h : g.2 < y.2
      · rw [show maxStep g y = y from if_pos h]
        exact foldl_maxStep_start_le zs y
      · rw [show maxStep g y = g from if_neg h]
        exact le_trans (not_lt.mp h) (foldl_maxStep_start_le zs g)
    · exact ih (maxStep g z) y hy'

theorem foldl_maxStep_all_le (l : List (String × ℚ)) (g : String × ℚ) :
    ∀ y ∈ g :: l, y.2 ≤ (l.foldl maxStep g).2 := by
  intro y hy
  rcases List.mem_cons.mp hy with rfl | hy'
  · exact foldl_maxStep_start_le l y
  · exact foldl_maxStep_mem_le l g y hy'

theorem foldl_maxStep_split (l : List (String × ℚ)) :
    ∀ g : String × ℚ, ∃ l1 l2, g :: l = l1 ++ (l.foldl maxStep g) :: l2 ∧
      ∀ y ∈ l1, y.2 < (l.foldl maxStep g).2 := by
  induction l with
  | nil => intro g; exact ⟨[], [], rfl, by intro y hy; cases hy⟩
  | cons z zs ih =>
    intro g
    rw [List.foldl_cons]
    by_cases h : g.2 < z.2
    · rw [show maxStep g z = z from if_pos h]
      obtain ⟨l1, l2, heq, hlt⟩ := ih z
      refine ⟨g :: l1, l2, by rw [List.cons_append, ← heq], ?_⟩
      intro y hy
      rcases List.mem_cons.mp hy with rfl | hy'
      · exact lt_of_lt_of_le h (foldl_maxStep_start_le zs z)
      · exact hlt y hy'
    · rw [show maxStep g z = g from if_neg h]
      obtain ⟨l1, l2, heq, hlt⟩ := ih g
      cases l1 with
      | nil =>
        rw [List.nil_append] at heq
        obtain ⟨hg, hzs⟩ : g = zs.foldl maxStep g ∧ zs = l2 := by
          have h1 := List.head_eq_of_cons_eq heq
          have h2 := List.tail_eq_of_cons_eq heq
          exact ⟨h1, h2⟩
        refine ⟨[], z :: zs, ?_, by intro y hy; cases hy⟩
        rw [List.nil_append, ← hg]
      | cons a l1' =>
        rw [List.cons_append] at heq
        have ha : g = a := List.head_eq_of_cons_eq heq
        have hzs : zs = l1' ++ (zs.foldl maxStep g) :: l2 := List.tail_eq_of_cons_eq heq
        have hglt : g.2 < (zs.foldl maxStep g).2 := by
          have hmem := hlt a (List.mem_cons_self a l1')
          rwa [← ha] at hmem
        refine ⟨g :: z :: l1', l2, ?_, ?_⟩
        · rw [List.cons_append, List.cons_append, ← hzs]
        · intro y hy
          rcases List.mem_cons.mp hy with rfl | hy'
          · exact hglt
          rcases List.mem_cons.mp hy' with rfl | hy''
          · exact lt_of_le_of_lt (not_lt.mp h) hglt
          · exact hlt y (List.mem_cons_of_mem a hy'')

theorem foldl_minStep_start_ge (l : List (String × ℚ)) :
    ∀ g : String × ℚ, (l.foldl minStep g).2 ≤ g.2 := by
  induction l with
  | nil => intro g; exact le_refl _
  | cons z zs ih =>
    intro g
    rw [List.foldl_cons]
    by_cases h : z.2 < g.2
    · rw [show minStep g z = z from if_pos h]
      exact le_of_lt (lt_of_le_of_lt (ih z) h)
    · rw [show minStep g z = g from if_neg h]
      exact ih g

theorem foldl_minStep_mem_ge (l : List (String × ℚ)) :
    ∀ (g : String × ℚ), ∀ y ∈ l, (l.foldl minStep g).2 ≤ y.2 := by
  induction l with
  | nil => intro g y hy; cases hy
  | cons z zs ih =>
    intro g y hy
    rw [List.foldl_cons]
    rcases List.mem_cons.mp hy with rfl | hy'
    · by_cases h : y.2 < g.2
      · rw [show minStep g y = y from if_pos h]
        exact foldl_minStep_start_ge zs y
      · rw [show minStep g y = g from if_neg h]
        exact le_trans (foldl_minStep_start_ge zs g) (not_lt.mp h)
    · exact ih (minStep g z) y hy'

theorem foldl_minStep_all_ge (l : List (String × ℚ)) (g : String × ℚ) :
    ∀ y ∈ g :: l, (l.foldl minStep g).2 ≤ y.2 := by
  intro y hy
  rcases List.mem_cons.mp hy with rfl | hy'
  · exact foldl_minStep_start_ge l y
  · exact foldl_minStep_mem_ge l g y hy'

theorem foldl_minStep_split (l : List (String × ℚ)) :
    ∀ g : String × ℚ, ∃ l1 l2, g :: l = l1 ++ (l.foldl minStep g) :: l2 ∧
      ∀ y ∈ l1, (l.foldl minStep g).2 < y.2 := by
  induction l with
  | nil => intro g; exact ⟨[], [], rfl, by intro y hy; cases hy⟩
  | cons z zs ih =>
    intro g
    rw [List.foldl_cons]
    by_cases h : z.2 < g.2
    · rw [show minStep g z = z from if_pos h]
      obtain ⟨l1, l2, heq, hlt⟩ := ih z
      refine ⟨g :: l1, l2, by rw [List.cons_append, ← heq], ?_⟩
      intro y hy
      rcases List.mem_cons.mp hy with rfl | hy'
      · exact lt_of_le_of_lt (foldl_minStep_start_ge zs z) h
      · exact hlt y hy'
    · rw [show minStep g z = g from if_neg h]
      obtain ⟨l1, l2, heq, hlt⟩ := ih g
      cases l1 with
      | nil =>
        rw [List.nil_append] at heq
        have hg : g = zs.foldl minStep g := List.head_eq_of_cons_eq heq
        refine ⟨[], z :: zs, ?_, by intro y hy; cases hy⟩
        rw [List.nil_append, ← hg]
      | cons a l1' =>
        rw [List.cons_append] at heq
        have ha : g = a := List.head_eq_of_cons_eq heq
        have hzs : zs = l1' ++ (zs.foldl minStep g) :: l2 := List.tail_eq_of_cons_eq heq
        have hglt : (zs.foldl minStep g).2 < g.2 := by
          have hmem := hlt a (List.mem_cons_self a l1')
          rwa [← ha] at hmem
        refine ⟨g :: z :: l1', l2, ?_, ?_⟩
        · rw [List.cons_append, List.cons_append, ← hzs]
        · intro y hy
          rcases List.mem_cons.mp hy with rfl | hy'
          · exact hglt
          rcases List.mem_cons.mp hy' with rfl | hy''
          · exact lt_of_lt_of_le hglt (not_lt.mp h)
          · exact hlt y (List.mem_cons_of_mem a hy'')

/- ### Relating the sweep's gains table to the pure gains list -/

theorem curveAux_length (H : ℚ → ℚ) (key : List Bool) (model : String) (R : ℕ → RandSrc) :
    ∀ (j : ℕ) (ps : List ℚ), (curveAux H key model R j ps).length = ps.length := by
  intro j ps
  induction ps generalizing j with
  | nil => rfl
  | cons p pt ih => simp [curveAux, ih]

theorem gainDiffs_length (keyLength : ℕ) (curve : List ℕ) :
    (gainDiffs keyLength curve).length = curve.length := by
  rw [gainDiffs, List.length_map]

theorem listMean_of_ne_nil (xs : List ℚ) (h : xs ≠ []) : listMean xs = some (meanVal xs) := by
  rw [listMean, if_neg h]

theorem gainsAux_eq_map (H : ℚ → ℚ) (key : List Bool) (grid : List ℚ)
    (Rs : ℕ → ℕ → RandSrc) (hg : grid ≠ []) :
    ∀ (i : ℕ) (ms : List String),
      gainsAux H key grid Rs i ms = (gainsQAux H key grid Rs i ms).map liftGain := by
  intro i ms
  induction ms generalizing i with
  | nil => rfl
  | cons m mt ih =>
    rw [gainsAux, gainsQAux, List.map_cons, ih]
    have hne : gainDiffs key.length (modelCurve H key m grid (Rs i)) ≠ [] := by
      intro hnil
      apply hg
      have hlen : (gainDiffs key.length (modelCurve H key m grid (Rs i))).length =
          grid.length := by
        rw [gainDiffs_length, modelCurve, curveAux_length]
      rw [hnil] at hlen
      exact List.length_eq_zero.mp hlen.symm
    rw [listMean_of_ne_nil _ hne]
    rfl

theorem foldl_nan_max_lift (l : List (String × ℚ)) :
    ∀ g : String × ℚ,
      (l.map liftGain).foldl (fun acc y => if nanGt y.2 acc.2 then y else acc) (liftGain g) =
        liftGain (l.foldl maxStep g) := by
  induction l with
  | nil => intro g; rfl
  | cons z zs ih =>
    intro g
    rw [List.map_cons, List.foldl_cons, List.foldl_cons]
    have hstep : (if nanGt (liftGain z).2 (liftGain g).2 then liftGain z else liftGain g) =
        liftGain (maxStep g z) := by
      by_cases h : g.2 < z.2 <;> simp [nanGt, liftGain, maxStep, h]
    rw [hstep, ih]

theorem foldl_nan_min_lift (l : List (String × ℚ)) :
    ∀ g : String × ℚ,
      (l.map liftGain).foldl (fun acc y => if nanLt y.2 acc.2 then y else acc) (liftGain g) =
        liftGain (l.foldl minStep g) := by
  induction l with
  | nil => intro g; rfl
  | cons z zs ih =>
    intro g
    rw [List.map_cons, List.foldl_cons, List.foldl_cons]
    have hstep : (if nanLt (liftGain z).2 (liftGain g).2 then liftGain z else liftGain g) =
        liftGain (minStep g z) := by
      by_cases h : z.2 < g.2 <;> simp [nanLt, liftGain, minStep, h]
    rw [hstep, ih]

theorem unified_ok_inv (H : ℚ → ℚ) (key : List Bool) (models : List String)
    (grid : List ℚ) (Rs : ℕ → ℕ → RandSrc) (s : SweepStats)
    (hrun : unified_comparison_all_models H key models grid Rs = Except.ok s) :
    s.adaptive_matrix = matrixAux H key grid Rs 0 models ∧
    s.model_gains = gainsAux H key grid Rs 0 models ∧
    ∃ b w, pyMax (gainsAux H key grid Rs 0 models) = some b ∧
      pyMin (gainsAux H key grid Rs 0 models) = some w ∧
      s.best_model = b.1 ∧ s.best_gain = b.2 ∧
      s.worst_model = w.1 ∧ s.worst_gain = w.2 := by
  by_cases hm : models = []
  · subst hm
    simp [unified_comparison_all_models] at hrun
  · simp only [unified_comparison_all_models] at hrun
    rw [if_neg hm] at hrun
    rcases hmax : pyMax (gainsAux H key grid Rs 0 models) with _ | b <;>
      rcases hmin : pyMin (gainsAux H key grid Rs 0 models) with _ | w <;>
        rw [hmax, hmin] at hrun
    · cases hrun
    · cases hrun
    · cases hrun
    · have hs := Except.ok.inj hrun
      subst hs
      exact ⟨rfl, rfl, b, w, rfl, rfl, rfl, rfl, rfl, rfl⟩

theorem gainsQAux_eq_enumFrom (H : ℚ → ℚ) (key : List Bool) (grid : List ℚ)
    (Rs : ℕ → ℕ → RandSrc) :
    ∀ (i : ℕ) (ms : List String),
      gainsQAux H key grid Rs i ms = (List.enumFrom i ms).map
        (fun pr =>
          (pr.2, meanVal (gainDiffs key.length (modelCurve H key pr.2 grid (Rs pr.1))))) := by
  intro i ms
  induction ms generalizing i with
  | nil => rfl
  | cons m mt ih =>
    rw [gainsQAux, ih (i + 1)]
    rfl

/- ### Claim C3 -/

/-- C3: for any completed sweep with a non-empty grid, the gains table has,
in model-list order, one entry per model whose gain is the mean over the grid
of (retained-bit count − static baseline); the selected best model's gain is
≥ every gain, the selected worst model's gain is ≤ every gain, and both
selections are the FIRST entry attaining the optimum (every entry strictly
before them is strictly worse), i.e. ties break by first-encountered order. -/
theorem C3_sweep_best_worst (H : ℚ → ℚ) (key : List Bool) (models : List String)
    (grid : List ℚ) (Rs : ℕ → ℕ → RandSrc) (s : SweepStats)
    (hg : grid ≠ [])
    (hrun : unified_comparison_all_models H key models grid Rs = Except.ok s) :
    (s.model_gains = models.enum.map (fun pr =>
      (pr.2, some (meanVal (gainDiffs key.length (modelCurve H key pr.2 grid (Rs pr.1))))))) ∧
    (∃ bq l1 l2, s.best_gain = some bq ∧
      s.model_gains = l1 ++ (s.best_model, some bq) :: l2 ∧
      (∀ pr ∈ s.model_gains, ∀ q, pr.2 = some q → q ≤ bq) ∧
      (∀ pr ∈ l1, ∀ q, pr.2 = some q → q < bq)) ∧
    (∃ wq l1 l2, s.worst_gain = some wq ∧
      s.model_gains = l1 ++ (s.worst_model, some wq) :: l2 ∧
      (∀ pr ∈ s.model_gains, ∀ q, pr.2 = some q → wq ≤ q) ∧
      (∀ pr ∈ l1, ∀ q, pr.2 = some q → wq < q)) := by
  obtain ⟨hmat, hgains, b, w, hmax, hmin, hbm, hbg, hwm, hwg⟩ :=
    unified_ok_inv H key models grid Rs s hrun
  have hlift := gainsAux_eq_map H key grid Rs hg 0 models
  have hc1 : s.model_gains = models.enum.map (fun pr =>
      (pr.2, some (meanVal (gainDiffs key.length (modelCurve H key pr.2 grid (Rs pr.1)))))) := by
    rw [hgains, hlift, gainsQAux_eq_enumFrom, List.map_map]
    rfl
  refine ⟨hc1, ?_, ?_⟩
  · rcases hq : gainsQAux H key grid Rs 0 models with _ | ⟨g0, gt⟩
    · rw [hlift, hq] at hmax
      simp [pyMax] at hmax
    · rw [hlift, hq, List.map_cons] at hmax
      have hPM : pyMax (liftGain g0 :: List.map liftGain gt) =
          some ((List.map liftGain gt).foldl
            (fun acc y => if nanGt y.2 acc.2 then y else acc) (liftGain g0)) := rfl
      rw [hPM, foldl_nan_max_lift] at hmax
      have hb : b = liftGain (gt.foldl maxStep g0) := (Option.some.inj hmax).symm
      obtain ⟨l1, l2, hsplit, hstrict⟩ := foldl_maxStep_split gt g0
      refine ⟨(gt.foldl maxStep g0).2, l1.map liftGain, l2.map liftGain, ?_, ?_, ?_, ?_⟩
      · rw [hbg, hb]; rfl
      · rw [hgains, hlift, hq, hbm, hb, hsplit, List.map_append, List.map_cons]
        rfl
      · intro pr hpr q hq2
        rw [hgains, hlift, hq] at hpr
        obtain ⟨y, hy, rfl⟩ := List.mem_map.mp hpr
        have hle := foldl_maxStep_all_le gt g0 y hy
        have hq3 : y.2 = q := Option.some.inj hq2
        exact hq3 ▸ hle
      · intro pr hpr q hq2
        obtain ⟨y, hy, rfl⟩ := List.mem_map.mp hpr
        have hlt := hstrict y hy
        have hq3 : y.2 = q := Option.some.inj hq2
        exact hq3 ▸ hlt
  · rcases hq : gainsQAux H key grid Rs 0 models with _ | ⟨g0, gt⟩
    · rw [hlift, hq] at hmin
      simp [pyMin] at hmin
    · rw [hlift, hq, List.map_cons] at hmin
      have hPM : pyMin (liftGain g0 :: List.map liftGain gt) =
          some ((List.map liftGain gt).foldl
            (fun acc y => if nanLt y.2 acc.2 then y else acc) (liftGain g0)) := rfl
      rw [hPM, foldl_nan_min_lift] at hmin
      have hw : w = liftGain (gt.foldl minStep g0) := (Option.some.inj hmin).symm
      obtain ⟨l1, l2, hsplit, hstrict⟩ := foldl_minStep_split gt g0
      refine ⟨(gt.foldl minStep g0).2, l1.map liftGain, l2.map liftGain, ?_, ?_, ?_, ?_⟩
      · rw [hwg, hw]; rfl
      · rw [hgains, hlift, hq, hwm, hw, hsplit, List.map_append, List.map_cons]
        rfl
      · intro pr hpr q hq2
        rw [hgains, hlift, hq] at hpr
        obtain ⟨y, hy, rfl⟩ := List.mem_map.mp hpr
        have hge := foldl_minStep_all_ge gt g0 y hy
        have hq3 : y.2 = q := Option.some.inj hq2
        exact hq3 ▸ hge
      · intro pr hpr q hq2
        obtain ⟨y, hy, rfl⟩ := List.mem_map.mp hpr
        have hlt := hstrict y hy
        have hq3 : y.2 = q := Option.some.inj hq2
        exact hq3 ▸ hlt

/- ### Claim C10 -/

theorem static_baseline_le_retainedCount (L : ℕ) (x : ℚ) :
    static_baseline L ≤ retainedCount L x := by
  unfold static_baseline retainedCount
  have ha := adaptive_amplification_ge_half x
  have hL : (0 : ℚ) ≤ (L : ℚ) := Nat.cast_nonneg L
  have h1 : (L : ℚ) / 2 ≤ (L : ℚ) * adaptive_amplification x := by nlinarith
  have hfloor : L / 2 = ⌊(L : ℚ) / 2⌋₊ := by
    rw [show (2 : ℚ) = ((2 : ℕ) : ℚ) by norm_num, Nat.floor_div_nat, Nat.floor_natCast]
  rw [hfloor]
  exact Nat.floor_mono h1

theorem curveAux_ge_baseline (H : ℚ → ℚ) (key : List Bool) (model : String)
    (R : ℕ → RandSrc) :
    ∀ (j : ℕ) (ps : List ℚ), ∀ c ∈ curveAux H key model R j ps,
      static_baseline key.length ≤ c := by
  intro j ps
  induction ps generalizing j with
  | nil => intro c hc; cases hc
  | cons p pt ih =>
    intro c hc
    rcases List.mem_cons.mp hc with rfl | hc'
    · exact static_baseline_le_retainedCount _ _
    · exact ih (j + 1) c hc'

theorem matrixAux_rows_ge (H : ℚ → ℚ) (key : List Bool) (grid : List ℚ)
    (Rs : ℕ → ℕ → RandSrc) :
    ∀ (i : ℕ) (ms : List String), ∀ row ∈ matrixAux H key grid Rs i ms,
      ∀ c ∈ row, static_baseline key.length ≤ c := by
  intro i ms
  induction ms generalizing i with
  | nil => intro row hrow; cases hrow
  | cons m mt ih =>
    intro row hrow
    rcases List.mem_cons.mp hrow with rfl | hrow'
    · intro c hc
      exact curveAux_ge_baseline H key m (Rs i) 0 grid c hc
    · exact ih (i + 1) row hrow'

theorem gainsQAux_nonneg (H : ℚ → ℚ) (key : List Bool) (grid : List ℚ)
    (Rs : ℕ → ℕ → RandSrc) :
    ∀ (i : ℕ) (ms : List String), ∀ pr ∈ gainsQAux H key grid Rs i ms, 0 ≤ pr.2 := by
  intro i ms
  induction ms generalizing i with
  | nil => intro pr hpr; cases hpr
  | cons m mt ih =>
    intro pr hpr
    rcases List.mem_cons.mp hpr with rfl | hpr'
    · show (0 : ℚ) ≤ meanVal (gainDiffs key.length (modelCurve H key m grid (Rs i)))
      rw [meanVal]
      apply div_nonneg
      · apply List.sum_nonneg
        intro a ha
        rw [gainDiffs] at ha
        obtain ⟨c, hc, rfl⟩ := List.mem_map.mp ha
        have hbc := curveAux_ge_baseline H key m (Rs i) 0 grid c hc
        have hcast : ((static_baseline key.length : ℕ) : ℚ) ≤ (c : ℚ) := Nat.cast_le.mpr hbc
        linarith
      · exact Nat.cast_nonneg _
    · exact ih (i + 1) pr hpr'

/-- C10: in every completed sweep with a non-empty grid, every retained-bit
count in every model's curve is at least the static baseline
`key_length // 2` (because `adaptive_amplification` never returns below
`0.5`), hence every per-model gain over the baseline — the worst model's
included — is non-negative. -/
theorem C10_retained_ge_baseline (H : ℚ → ℚ) (key : List Bool) (models : List String)
    (grid : List ℚ) (Rs : ℕ → ℕ → RandSrc) (s : SweepStats)
    (hg : grid ≠ [])
    (hrun : unified_comparison_all_models H key models grid Rs = Except.ok s) :
    (∀ row ∈ s.adaptive_matrix, ∀ c ∈ row, static_baseline key.length ≤ c) ∧
    (∀ pr ∈ s.model_gains, ∃ q, pr.2 = some q ∧ 0 ≤ q) ∧
    (∃ q, s.worst_gain = some q ∧ 0 ≤ q) := by
  obtain ⟨hmat, hgains, b, w, hmax, hmin, hbm, hbg, hwm, hwg⟩ :=
    unified_ok_inv H key models grid Rs s hrun
  have hlift := gainsAux_eq_map H key grid Rs hg 0 models
  refine ⟨?_, ?_, ?_⟩
  · intro row hrow c hc
    rw [hmat] at hrow
    exact matrixAux_rows_ge H key grid Rs 0 models row hrow c hc
  · intro pr hpr
    rw [hgains, hlift] at hpr
    obtain ⟨y, hy, rfl⟩ := List.mem_map.mp hpr
    exact ⟨y.2, rfl, gainsQAux_nonneg H key grid Rs 0 models y hy⟩
  · rcases hq : gainsQAux H key grid Rs 0 models with _ | ⟨g0, gt⟩
    · rw [hlift, hq] at hmin
      simp [pyMin] at hmin
    · rw [hlift, hq, List.map_cons] at hmin
      have hPM : pyMin (liftGain g0 :: List.map liftGain gt) =
          some ((List.map liftGain gt).foldl
            (fun acc y => if nanLt y.2 acc.2 then y else acc) (liftGain g0)) := rfl
      rw [hPM, foldl_nan_min_lift] at hmin
      have hw : w = liftGain (gt.foldl minStep g0) := (Option.some.inj hmin).symm
      obtain ⟨l1, l2, hsplit, _⟩ := foldl_minStep_split gt g0
      have hmem : gt.foldl minStep g0 ∈ g0 :: gt := by
        rw [hsplit]
        exact List.mem_append.mpr (Or.inr (List.mem_cons_self _ _))
      have hnn := gainsQAux_nonneg H key grid Rs 0 models (gt.foldl minStep g0)
        (by rw [hq]; exact hmem)
      exact ⟨(gt.foldl minStep g0).2, by rw [hwg, hw]; rfl, hnn⟩

/-- Concrete evaluation of the sweep on one model and one grid point, used to
witness the sweep theorems: `rand = 1` never fires at `p = 1/10`, so the key
survives, QBER is 0, confidence is 1, the full key (1 bit) is retained, the
baseline is `1 // 2 = 0`, and the single gain is `1`. -/
theorem run0_eval :
    unified_comparison_all_models (fun _ => 0) [true] ["Bit Flip"] [1/10]
        (fun _ _ => constSrc) =
      Except.ok
        ⟨[[1]], [("Bit Flip", some 1)], [1], [1], [1], "Bit Flip", "Bit Flip",
         some 1, some 1⟩ := by
  have hnoise : apply_noise [true] (1/10) "Bit Flip" constSrc = [true] := by
    norm_num [apply_noise, applyNoiseAux, noisyBit, constSrc]
  have hcount : ([true].zip [true]).countP (fun pr => pr.1 ≠ pr.2) = 0 := by decide
  have hqber : qberVal [true] [true] = 0 := by
    rw [qberVal, hcount]
    norm_num
  have hret : retainedCount ([true] : List Bool).length
      (1 - shannon_entropy (fun _ => 0) (qberVal [true] [true])) = 1 := by
    rw [hqber, shannon_entropy, if_pos (Or.inl rfl), retainedCount, adaptive_amplification,
      if_pos (by norm_num)]
    norm_num
  have hcurve : modelCurve (fun _ => 0) [true] "Bit Flip" [1/10] (fun _ => constSrc) = [1] := by
    rw [modelCurve, curveAux, curveAux, hnoise, hret]
  have hdiffs : gainDiffs ([true] : List Bool).length [1] = [1] := by
    norm_num [gainDiffs, static_baseline]
  have hmean : listMean [(1 : ℚ)] = some 1 := by
    rw [listMean, if_neg (List.cons_ne_nil _ _), meanVal]
    norm_num
  have hgains : gainsAux (fun _ => 0) [true] [1/10] (fun _ _ => constSrc) 0 ["Bit Flip"] =
      [("Bit Flip", some 1)] := by
    rw [gainsAux, gainsAux, hcurve, hdiffs, hmean]
  have hmatrix : matrixAux (fun _ => 0) [true] [1/10] (fun _ _ => constSrc) 0 ["Bit Flip"] =
      [[1]] := by
    rw [matrixAux, matrixAux, hcurve]
  simp only [unified_comparison_all_models, hgains, hmatrix]
  rw [if_neg (by simp)]
  norm_num [pyMax, pyMin, colMin, colMax, List.range_succ, Function.comp_def]

/-- Witness for C3 at the concrete one-model, one-point sweep: the gains
table of the completed run equals the enum-mapped mean-gain table. -/
theorem C3_sweep_best_worst_witness :
    (SweepStats.mk [[1]] [("Bit Flip", some 1)] [1] [1] [1] "Bit Flip" "Bit Flip"
        (some 1) (some 1)).model_gains =
      (["Bit Flip"].enum).map (fun pr =>
        (pr.2, some (meanVal (gainDiffs ([true] : List Bool).length
          (modelCurve (fun _ => 0) [true] pr.2 [1/10] ((fun _ _ => constSrc) pr.1)))))) :=
  (C3_sweep_best_worst (fun _ => 0) [true] ["Bit Flip"] [1/10] (fun _ _ => constSrc)
    (SweepStats.mk [[1]] [("Bit Flip", some 1)] [1] [1] [1] "Bit Flip" "Bit Flip"
      (some 1) (some 1)) (List.cons_ne_nil _ _) run0_eval).1

/-- Witness for C10 at the same concrete sweep: the single retained count 1
is at least the static baseline `1 // 2 = 0`. -/
theorem C10_retained_ge_baseline_witness :
    static_baseline ([true] : List Bool).length ≤ 1 :=
  (C10_retained_ge_baseline (fun _ => 0) [true] ["Bit Flip"] [1/10] (fun _ _ => constSrc)
      (SweepStats.mk [[1]] [("Bit Flip", some 1)] [1] [1] [1] "Bit Flip" "Bit Flip"
        (some 1) (some 1)) (List.cons_ne_nil _ _) run0_eval).1
    [1] (List.mem_singleton.mpr rfl) 1 (List.mem_singleton.mpr rfl)
